import Mathlib

/-!
Verification of the django-lexorank ranked-model layer.

The repository code under verification consists of
`django_lexorank/models/ranked_model.py` (the placement orchestrator),
`django_lexorank/models/scheduled_rebalancing.py` (the MaintenanceRequest
table) and `django_lexorank/management/commands/base_rebalance.py` (the
maintenance runner).  The pure rank-key algebra (`django_lexorank/lexorank.py`,
class `LexoRank`) is not part of the shown sources; its operations are
modelled from the specification and are marked as such in their doc comments.

Modelling conventions:
* A rank string is a list of digit ordinals over the base-36 alphabet
  (`Rank := List Nat`); lexicographic comparison of rank strings is `lexLt`.
* Textual values (partition key components, serialized keys, model names)
  are `List Char`.
* The Django ORM surface (`cls.objects` / the `_model` accessor) is modelled
  as queries over an explicit database value `DB` holding the ranked rows
  and the `ScheduledRebalancing` rows; `select_for_update`, transactions and
  locking are outside the model (the spec delegates them to the store).
* Python exceptions are modelled with `Except`; the distinguished errors the
  code can raise are collected in `PyErr`.
-/

/-- Size of the rank alphabet.  Modelled from the spec: "an alphabet of 36-94
symbols"; the library uses base 36. -/
def alphabetBase : Nat := 36

/-- Largest digit ordinal of the alphabet, used when a position of the `next`
boundary is past its end. -/
def maxDigit : Nat := 35

/-- Modelled from the spec: the fixed maximum rank length `L` ("e.g. 128
symbols"); `midpoint` fails with the overflow signal when the synthesized
key's length would exceed it. -/
def max_rank_length : Nat := 128

/-- Modelled from the spec and the docstring of
`RankedModel.rebalancing_required`: `LexoRank.rebalancing_length`, the rank
length at which rebalancing of a partition gets scheduled (128). -/
def rebalancing_length : Nat := 128

/-- A rank key: the list of digit ordinals of a base-36 string, most
significant first. -/
abbrev Rank := List Nat

/-- Lexicographic strict order on rank strings, i.e. the comparison the
database applies to the `rank` column for `rank__lt` / `rank__gt` filters and
for `order_by("rank")`: a strict prefix sorts before its extensions. -/
def lexLt : List Nat → List Nat → Bool
  | [], [] => false
  | [], _ :: _ => true
  | _ :: _, [] => false
  | a :: as, b :: bs => if a < b then true else if a = b then lexLt as bs else false

/-- Modelled from the spec: the tail of the midpoint walk once `prev` is
exhausted (every further `prev` position reads as the alphabet's minimum 0):
at the first position of `next` with room, take the midpoint digit; otherwise
emit the minimum digit and continue; if `next` is also exhausted, extend by
one mid-of-alphabet digit. -/
def midFromLow : List Nat → List Nat
  | [] => [(0 + maxDigit + 1) / 2]
  | nc :: nt => if 2 ≤ nc then [nc / 2] else 0 :: midFromLow nt

/-- Modelled from the spec: the midpoint walk of the rank algebra.  Walk the
two boundary strings position by position; a missing position of `prev` reads
as the minimum digit, a past-end position of `next` as the maximum digit.  At
the first position with room (effective next digit minus effective previous
digit at least 2) emit the midpoint digit and stop; otherwise emit the
effective previous digit and keep walking; when both strings are exhausted,
extend the common prefix by one mid-of-alphabet digit. -/
def midWalk : List Nat → List Nat → List Nat
  | [], n => midFromLow n
  | pc :: pt, [] =>
      if 2 ≤ maxDigit - pc then [(pc + maxDigit) / 2] else pc :: midWalk pt []
  | pc :: pt, nc :: nt =>
      if 2 ≤ nc - pc then [(pc + nc) / 2] else pc :: midWalk pt nt

deriving instance DecidableEq for Except

set_option maxRecDepth 8000

/-- The overflow signal of the rank algebra
(`RebalancingRequiredException`). -/
inductive LexoErr
  | rebalancingRequired
deriving DecidableEq, Repr

/-- The errors the modelled code can raise: `TypeError` (calling a function
with a missing required argument, or unpacking `None`), `IndexError`
(indexing past the end of a list), the `Exception("Not valid rank")` raised
by `place_between`, and a propagated algebra error. -/
inductive PyErr
  | typeError
  | indexError
  | invalidRank
  | lexo (e : LexoErr)
deriving DecidableEq, Repr

/-- Modelled from the spec: `LexoRank.get_lexorank_in_between` — midpoint
synthesis between two optional boundary ranks (absent `prev` reads as the
bottom of the key space, absent `next` as the top), raising the overflow
signal when the synthesized key's length would exceed `max_rank_length`.
The `objects_count` argument is forwarded by every call site; the spec's
midpoint is a function of the boundaries alone. -/
def get_lexorank_in_between (previousRank nextRank : Option Rank)
    (objectsCount : Nat) : Except LexoErr Rank :=
  let d := midWalk (previousRank.getD []) (nextRank.getD [])
  let _ := objectsCount
  if max_rank_length < d.length then .error .rebalancingRequired else .ok d

/-- Fuel-bounded count of base-36 digits (structural, so that concrete
evaluation stays kernel-reducible). -/
def digitCountAux : Nat → Nat → Nat
  | 0, _ => 0
  | fuel + 1, n => if n = 0 then 0 else digitCountAux fuel (n / alphabetBase) + 1

/-- Number of base-36 digits of `n`. -/
def digitCount (n : Nat) : Nat := digitCountAux n n

/-- Modelled from the spec: length of the keys produced for a redistributed
partition of `n` items — the precision grows with the item count so that the
spacing leaves headroom. -/
def rankLength (n : Nat) : Nat := digitCount (n + 1) + 3

/-- Modelled from the spec: the fixed stride of `increment_rank`, sized so
that `n` steps fit comfortably inside the key space of length
`rankLength n` with slack left for future insertions. -/
def rankStride (n : Nat) : Nat := alphabetBase ^ rankLength n / (2 * (n + 1))

/-- Digits (most significant first, fixed width `l`) of a natural number. -/
def natToDigits : Nat → Nat → List Nat
  | 0, _ => []
  | l + 1, v => v / alphabetBase ^ l :: natToDigits l (v % alphabetBase ^ l)

/-- Numeric value of a digit string. -/
def digitsToNat (ds : List Nat) : Nat :=
  ds.foldl (fun a d => a * alphabetBase + d) 0

/-- Modelled from the spec: `LexoRank.get_min_rank` — the starting key for a
fresh or freshly redistributed partition of `objects_count` items. -/
def get_min_rank (objectsCount : Nat) : Rank :=
  natToDigits (rankLength objectsCount) 0

/-- Modelled from the spec: `LexoRank.increment_rank` — step the previous
item's key by the fixed stride for a partition of `objects_count` items. -/
def increment_rank (rank : Rank) (objectsCount : Nat) : Rank :=
  natToDigits (rankLength objectsCount) (digitsToNat rank + rankStride objectsCount)

/-- A row of a concrete `RankedModel` table: identity, the values of the
`order_with_respect_to` grouping fields (each already in its serialized
string form `str(getattr(self, field).pk)`), and the rank. -/
structure Item where
  id : Nat
  partKey : List (List Char)
  rank : Rank
deriving DecidableEq, Repr

/-- A row of the `ScheduledRebalancing` table: the model name, the serialized
partition key (`with_respect_to`), and the `auto_now_add` timestamp. -/
structure SchedRow where
  model : List Char
  withRespectTo : List Char
  scheduledAt : Nat
deriving DecidableEq, Repr

/-- The database state the modelled operations read and write: the ranked
rows of one model plus the `ScheduledRebalancing` table. -/
structure DB where
  items : List Item
  scheduled : List SchedRow
deriving DecidableEq, Repr

/-- `RankedModel.SEPARATOR`. -/
def SEPARATOR : Char := ':'

/-- Python `key.split(SEPARATOR)`: split a character list at every separator
occurrence; the result is always non-empty. -/
def splitSep : List Char → List (List Char)
  | [] => [[]]
  | c :: rest =>
      let r := splitSep rest
      if c = SEPARATOR then [] :: r else (c :: r.headD []) :: r.tail

/-- Python `SEPARATOR.join(values)`. -/
def joinSep : List (List Char) → List Char
  | [] => []
  | [x] => x
  | x :: y :: rest => x ++ SEPARATOR :: joinSep (y :: rest)

/-- `RankedModel._with_respect_to_value_key`: the serialized partition key,
the separator-join of the string forms of the grouping field values. -/
def with_respect_to_value_key (values : List (List Char)) : List Char :=
  joinSep values

/-- `RankedModel.reverse_with_respect_to_value_key`: split the serialized key
and assign the components to the grouping fields in order.  When the class
has no `order_with_respect_to` list, iterating `None` raises `TypeError`;
when the key has fewer components than there are grouping fields, the
`values[idx]` access raises `IndexError`. -/
def reverse_with_respect_to_value_key (orderWithRespectTo : Option (List (List Char)))
    (key : List Char) : Except PyErr (List (List Char)) :=
  match orderWithRespectTo with
  | none => .error .typeError
  | some fields =>
      let values := splitSep key
      if values.length < fields.length then .error .indexError
      else .ok (values.take fields.length)

/-- `self._objects_count` filter: the rows of one partition
(`cls.objects.filter(**with_respect_to_kwargs)`). -/
def partItems (db : DB) (pk : List (List Char)) : List Item :=
  db.items.filter (fun j => decide (j.partKey = pk))

/-- `self._objects_count`: `filter(**kwargs).count()`. -/
def partCount (db : DB) (pk : List (List Char)) : Nat :=
  (partItems db pk).length

/-- Stable insertion used to model `order_by("rank")`. -/
def insertByRank (x : Item) : List Item → List Item
  | [] => [x]
  | y :: ys => if lexLt x.rank y.rank then x :: y :: ys else y :: insertByRank x ys

/-- `order_by("rank")`: the rows sorted by the lexicographic rank order. -/
def sortByRank (l : List Item) : List Item :=
  l.foldr insertByRank []

/-- The shared reassignment loop of `RankedModel.rebalance` and
`RankedModel.rebalance_by_scheduled`:
`for obj in qs: rank = LexoRank.increment_rank(rank, objects_count); obj.rank = rank`.
Note that the running key is incremented before the first assignment. -/
def assignRanks (objectsCount : Nat) : List Item → Rank → List Item
  | [], _ => []
  | it :: rest, rank =>
      let rank' := increment_rank rank objectsCount
      { it with rank := rank' } :: assignRanks objectsCount rest rank'

/-- The reassigned rows of one partition after a redistribution: the rows in
current rank order, fed through `assignRanks` starting from
`LexoRank.get_min_rank(objects_count)`. -/
def rebalancedPartition (db : DB) (pk : List (List Char)) : List Item :=
  assignRanks (partCount db pk) (sortByRank (partItems db pk)) (get_min_rank (partCount db pk))

/-- `bulk_update(objects_to_update, ["rank"])`: write the reassigned rank of
every updated row back by row identity. -/
def applyUpdates (upd : List Item) (items : List Item) : List Item :=
  items.map (fun it => ((upd.find? (fun u => decide (u.id = it.id))).getD it))

/-- `RankedModel.rebalance` (and the body of `rebalance_by_scheduled` once the
partition values are decoded): redistribute the whole partition evenly. -/
def rebalance_model (db : DB) (pk : List (List Char)) : DB :=
  { db with items := applyUpdates (rebalancedPartition db pk) db.items }

/-- `RankedModel.rebalance_by_scheduled`: decode the serialized partition key
into the grouping filter, then redistribute that partition.  Decoding errors
(`TypeError` for a missing `order_with_respect_to`, `IndexError` for a key
with too few components) propagate to the caller. -/
def rebalance_by_scheduled (orderWithRespectTo : Option (List (List Char)))
    (key : List Char) (db : DB) : Except PyErr DB :=
  match reverse_with_respect_to_value_key orderWithRespectTo key with
  | .error e => .error e
  | .ok vals => .ok (rebalance_model db vals)

/-- The `for item in scheduled:` loop of `Command.resolve`: process the due
rows in order; an exception from one row's redistribution propagates and
aborts the remaining iterations (the loop has no per-row exception
handling). -/
def processDue (orderWithRespectTo : Option (List (List Char))) :
    List SchedRow → DB → Except PyErr DB
  | [], db => .ok db
  | r :: rest, db =>
      match rebalance_by_scheduled orderWithRespectTo r.withRespectTo db with
      | .error e => .error e
      | .ok db' => processDue orderWithRespectTo rest db'

/-- `Command.resolve` of the `base_rebalance` management command: read every
`ScheduledRebalancing` row with `scheduled_at <= now` and run
`rebalance_by_scheduled` for each; the rows are not modified or deleted. -/
def resolve (orderWithRespectTo : Option (List (List Char))) (now : Nat)
    (db : DB) : Except PyErr DB :=
  processDue orderWithRespectTo (db.scheduled.filter (fun r => decide (r.scheduledAt ≤ now))) db

/-- `RankedModel.schedule_rebalancing`:
`ScheduledRebalancing.objects.update_or_create(model=..., with_respect_to=...)`.
With both fields used as the lookup and no update defaults, an existing row
is left as it is (in particular `scheduled_at` has `auto_now_add=True`, so it
is only ever set at creation); otherwise a new row is inserted with the
current time. -/
def schedule_rebalancing (modelName key : List Char) (now : Nat) (db : DB) : DB :=
  if db.scheduled.any (fun r => decide (r.model = modelName) && decide (r.withRespectTo = key))
  then db
  else { db with scheduled := db.scheduled ++ [{ model := modelName, withRespectTo := key, scheduledAt := now }] }

/-- Repeated invocations of `schedule_rebalancing` for one partition, one call
per listed timestamp. -/
def scheduleTimes (modelName key : List Char) (ts : List Nat) (db : DB) : DB :=
  ts.foldl (fun d t => schedule_rebalancing modelName key t d) db

/-- The matching rows for one (model, serialized partition key) pair. -/
def countKey (modelName key : List Char) (db : DB) : Nat :=
  (db.scheduled.filter (fun r => decide (r.model = modelName) && decide (r.withRespectTo = key))).length

/-- `RankedModel.rebalancing_required`: does any row of the partition have a
rank of length at least `LexoRank.rebalancing_length`?
(`rank__length__gte=LexoRank.rebalancing_length` plus the grouping filter). -/
def rebalancing_required (db : DB) (pk : List (List Char)) : Bool :=
  db.items.any (fun j => decide (j.partKey = pk) && decide (rebalancing_length ≤ j.rank.length))

/-- The row write of `super().save()`: update the row with the same identity,
or insert the new row. -/
def upsertItem (it : Item) (items : List Item) : List Item :=
  if items.any (fun j => decide (j.id = it.id))
  then items.map (fun j => if j.id = it.id then it else j)
  else items ++ [it]

/-- `RankedModel.save`: write the row, then, if the partition now holds a rank
at or above the rebalancing threshold, upsert a `ScheduledRebalancing` row
for it. -/
def save_model (modelName : List Char) (now : Nat) (it : Item) (db : DB) : DB :=
  let db1 : DB := { db with items := upsertItem it db.items }
  if rebalancing_required db1 it.partKey
  then schedule_rebalancing modelName (with_respect_to_value_key it.partKey) now db1
  else db1

/-- `refresh_from_db()` on an optional boundary object: re-read the row with
the same identity. -/
def refreshOpt (db : DB) : Option Item → Option Item
  | none => none
  | some b => some ((db.items.find? (fun j => decide (j.id = b.id))).getD b)

/-- `RankedModel._wrapper_get_lexorank_in_between`.  On the overflow signal
from the first synthesis it rebalances the whole partition inline, re-reads
both boundary objects, and calls the synthesis once more; a second error
propagates.  The `return` statement of the Python function sits in the
`else:` clause of its `try`, so on the successful-retry path the function
falls off its end and returns `None` — modelled by the `none` payload (the
retried rank is computed and then discarded). -/
def wrapperGetInBetween (db : DB) (selfPart : List (List Char))
    (beforeObj afterObj : Option Item) :
    Except PyErr (DB × Option (Option Item × Rank × Option Item)) :=
  match get_lexorank_in_between (beforeObj.map (fun b => b.rank))
      (afterObj.map (fun a => a.rank)) (partCount db selfPart) with
  | .ok rank => .ok (db, some (beforeObj, rank, afterObj))
  | .error .rebalancingRequired =>
      let db1 := rebalance_model db selfPart
      let before1 := refreshOpt db1 beforeObj
      let after1 := refreshOpt db1 afterObj
      match get_lexorank_in_between (before1.map (fun b => b.rank))
          (after1.map (fun a => a.rank)) (partCount db1 selfPart) with
      | .ok _ => .ok (db1, none)
      | .error e => .error (.lexo e)

/-- Python truthiness of an optional rank string: `if previous_rank:` is
taken for a present, non-empty rank. -/
def rankTruthy : Option Rank → Bool
  | none => false
  | some r => !r.isEmpty

/-- `RankedModel.place_between`: synthesize the in-between rank through the
wrapper, then raise `Exception("Not valid rank")` if any row of the partition
(the moved row itself included) already lies strictly between the boundary
ranks, else persist the new rank on the moved row via `_move_to`, i.e.
`save(update_fields=["rank"])`.  Unpacking the wrapper's `None` result (the
overflow-retry path) raises `TypeError`. -/
def place_between (modelName : List Char) (now : Nat) (db : DB) (selfObj : Item)
    (beforeObj afterObj : Option Item) : Except PyErr DB :=
  match wrapperGetInBetween db selfObj.partKey beforeObj afterObj with
  | .error e => .error e
  | .ok (_, none) => .error .typeError
  | .ok (db1, some (b1, rank, a1)) =>
      let previousRank := b1.map (fun b => b.rank)
      let nextRank := a1.map (fun a => a.rank)
      if db1.items.any (fun j =>
          decide (j.partKey = selfObj.partKey)
          && (if rankTruthy previousRank then lexLt (previousRank.getD []) j.rank else true)
          && (if rankTruthy nextRank then lexLt j.rank (nextRank.getD []) else true))
      then .error .invalidRank
      else .ok (save_model modelName now { selfObj with rank := rank } db1)

/-- `RankedModel.get_first_object(with_respect_to_kwargs)`: the row of the
given partition with the least rank.  The Python classmethod requires the
`with_respect_to_kwargs` argument (it raises `ValueError` when the class has
grouping fields and the argument is empty). -/
def get_first_object (db : DB) (withRespectToKwargs : List (List Char)) : Option Item :=
  (sortByRank (partItems db withRespectToKwargs)).head?

/-- `RankedModel.place_on_top` as implemented: its first statement is
`first_object = self.get_first_object()`, but `get_first_object` is a
classmethod whose required positional parameter `with_respect_to_kwargs` is
not supplied, so every invocation raises
`TypeError: get_first_object() missing 1 required positional argument`
before any rank is synthesized or persisted. -/
def place_on_top (db : DB) (selfObj : Item) : Except PyErr DB :=
  let _ := db
  let _ := selfObj
  .error .typeError

/-- Modelled from the spec: `place_on_top` as §4.2 describes it — the key is
`midpoint(None, first(partition).key)` obtained through the wrapper with the
partition's first row as the `after` boundary, and is then persisted on the
moved row.  This is the behaviour the claim states; compare with
`place_on_top` above, which models the code as written. -/
def place_on_top_spec (modelName : List Char) (now : Nat) (db : DB)
    (selfObj : Item) : Except PyErr DB :=
  match wrapperGetInBetween db selfObj.partKey none (get_first_object db selfObj.partKey) with
  | .error e => .error e
  | .ok (_, none) => .error .typeError
  | .ok (db1, some (_, rank, _)) =>
      .ok (save_model modelName now { selfObj with rank := rank } db1)

theorem lt_pow_digitCountAux : ∀ fuel m, m ≤ fuel → m < alphabetBase ^ digitCountAux fuel m := by
  intro fuel
  induction fuel with
  | zero => intro m hm; interval_cases m; simp [digitCountAux]
  | succ fuel ih =>
      intro m hm
      by_cases h0 : m = 0
      · simp [digitCountAux, h0]
      · have hdivlt : m / alphabetBase < m :=
          Nat.div_lt_self (Nat.pos_of_ne_zero h0) (by norm_num [alphabetBase])
        have hdiv : m / alphabetBase ≤ fuel := by omega
        have hrec := ih (m / alphabetBase) hdiv
        simp only [digitCountAux, h0, if_false]
        have h1 : m < alphabetBase * (m / alphabetBase + 1) := by
          rw [Nat.mul_add, Nat.mul_one]
          have := Nat.div_add_mod m alphabetBase
          have hmod : m % alphabetBase < alphabetBase := Nat.mod_lt _ (by norm_num [alphabetBase])
          omega
        calc m < alphabetBase * (m / alphabetBase + 1) := h1
          _ ≤ alphabetBase * alphabetBase ^ digitCountAux fuel (m / alphabetBase) :=
              Nat.mul_le_mul_left _ hrec
          _ = alphabetBase ^ (digitCountAux fuel (m / alphabetBase) + 1) := by
              rw [pow_succ, Nat.mul_comm]

theorem lt_pow_digitCount (m : Nat) : m < alphabetBase ^ digitCount m :=
  lt_pow_digitCountAux m m (Nat.le_refl m)

theorem two_mul_succ_le_cap (n : Nat) : 2 * (n + 1) ≤ alphabetBase ^ rankLength n := by
  have h := lt_pow_digitCount (n + 1)
  have h2 : 2 * (n + 1) ≤ 2 * alphabetBase ^ digitCount (n + 1) :=
    Nat.mul_le_mul_left _ (Nat.le_of_lt h)
  have h3 : 2 * alphabetBase ^ digitCount (n + 1)
      ≤ alphabetBase ^ 3 * alphabetBase ^ digitCount (n + 1) :=
    Nat.mul_le_mul_right _ (by norm_num [alphabetBase])
  have h4 : alphabetBase ^ 3 * alphabetBase ^ digitCount (n + 1)
      = alphabetBase ^ rankLength n := by
    rw [← pow_add, rankLength]
    congr 1
    omega
  omega

theorem rankStride_pos (n : Nat) : 1 ≤ rankStride n := by
  rw [rankStride, Nat.le_div_iff_mul_le (by omega)]
  simpa using two_mul_succ_le_cap n

theorem mul_rankStride_le_half (n k : Nat) (hk : k ≤ n + 1) :
    k * rankStride n ≤ alphabetBase ^ rankLength n / 2 := by
  have h1 : k * rankStride n ≤ (n + 1) * rankStride n :=
    Nat.mul_le_mul_right _ hk
  have h2 : (n + 1) * rankStride n ≤ alphabetBase ^ rankLength n / 2 := by
    rw [Nat.le_div_iff_mul_le (by norm_num)]
    calc (n + 1) * rankStride n * 2 = rankStride n * (2 * (n + 1)) := by ring
      _ ≤ alphabetBase ^ rankLength n := by
          rw [rankStride]
          exact Nat.div_mul_le_self _ _
  omega

theorem mul_rankStride_lt (n k : Nat) (hk : k ≤ n + 1) :
    k * rankStride n < alphabetBase ^ rankLength n := by
  have h1 := mul_rankStride_le_half n k hk
  have h2 : 0 < alphabetBase ^ rankLength n := Nat.pos_pow_of_pos _ (by norm_num [alphabetBase])
  have h3 : alphabetBase ^ rankLength n / 2 < alphabetBase ^ rankLength n :=
    Nat.div_lt_self h2 (by norm_num)
  omega

theorem natToDigits_length (l v : Nat) : (natToDigits l v).length = l := by
  induction l generalizing v with
  | zero => rfl
  | succ l ih => simp [natToDigits, ih]

theorem foldl_natToDigits (l v acc : Nat) (h : v < alphabetBase ^ l) :
    List.foldl (fun a d => a * alphabetBase + d) acc (natToDigits l v)
      = acc * alphabetBase ^ l + v := by
  induction l generalizing v acc with
  | zero =>
      have : v = 0 := by simpa using h
      simp [natToDigits, this]
  | succ l ih =>
      have hpos : 0 < alphabetBase ^ l := Nat.pos_pow_of_pos _ (by norm_num [alphabetBase])
      simp only [natToDigits, List.foldl]
      rw [ih _ _ (Nat.mod_lt _ hpos)]
      have hdm : alphabetBase ^ l * (v / alphabetBase ^ l) + v % alphabetBase ^ l = v :=
        Nat.div_add_mod v _
      rw [pow_succ]
      ring_nf
      ring_nf at hdm
      omega

theorem digitsToNat_natToDigits (l v : Nat) (h : v < alphabetBase ^ l) :
    digitsToNat (natToDigits l v) = v := by
  have := foldl_natToDigits l v 0 h
  simpa [digitsToNat] using this

theorem lexLt_natToDigits (l a b : Nat) (hab : a < b) (hb : b < alphabetBase ^ l) :
    lexLt (natToDigits l a) (natToDigits l b) = true := by
  induction l generalizing a b with
  | zero =>
      exfalso
      have : b = 0 := by simpa using hb
      omega
  | succ l ih =>
      have hpos : 0 < alphabetBase ^ l := Nat.pos_pow_of_pos _ (by norm_num [alphabetBase])
      simp only [natToDigits, lexLt]
      by_cases hq : a / alphabetBase ^ l < b / alphabetBase ^ l
      · simp [hq]
      · have hq2 : a / alphabetBase ^ l = b / alphabetBase ^ l :=
          Nat.le_antisymm (Nat.div_le_div_right (Nat.le_of_lt hab)) (Nat.le_of_not_lt hq)
        have hda : alphabetBase ^ l * (a / alphabetBase ^ l) + a % alphabetBase ^ l = a :=
          Nat.div_add_mod a _
        have hdb : alphabetBase ^ l * (b / alphabetBase ^ l) + b % alphabetBase ^ l = b :=
          Nat.div_add_mod b _
        have hmods : a % alphabetBase ^ l < b % alphabetBase ^ l := by
          rw [hq2] at hda
          have := hda.trans_lt (hdb ▸ hab)
          omega
        simp only [hq, if_false, hq2, if_pos rfl, lt_irrefl]
        exact ih _ _ hmods (Nat.mod_lt _ hpos)

/-- `k`-fold application of `increment_rank` for a fixed partition size. -/
def iterIncr (objectsCount : Nat) : Nat → Rank → Rank
  | 0, r => r
  | k + 1, r => iterIncr objectsCount k (increment_rank r objectsCount)

theorem iterIncr_succ_right (n k : Nat) (r : Rank) :
    iterIncr n (k + 1) r = increment_rank (iterIncr n k r) n := by
  induction k generalizing r with
  | zero => rfl
  | succ k ih => simp only [iterIncr]; rw [← ih]; rfl

theorem iterIncr_min (n k : Nat) (hk : k ≤ n + 1) :
    iterIncr n k (get_min_rank n) = natToDigits (rankLength n) (k * rankStride n) := by
  induction k with
  | zero => simp [iterIncr, get_min_rank]
  | succ k ih =>
      rw [iterIncr_succ_right, ih (by omega), increment_rank,
        digitsToNat_natToDigits _ _ (mul_rankStride_lt n k (by omega))]
      congr 1
      ring

theorem assignRanks_length (n : Nat) (xs : List Item) (r : Rank) :
    (assignRanks n xs r).length = xs.length := by
  induction xs generalizing r with
  | nil => rfl
  | cons it rest ih => simp [assignRanks, ih]

theorem assignRanks_getElem (n : Nat) (xs : List Item) (r : Rank) (i : Nat) :
    (assignRanks n xs r)[i]? = (xs[i]?).map (fun it => { it with rank := iterIncr n (i + 1) r }) := by
  induction xs generalizing i r with
  | nil => simp [assignRanks]
  | cons it rest ih =>
      cases i with
      | zero => simp [assignRanks, iterIncr]
      | succ i => simp [assignRanks, ih, iterIncr]

theorem insertByRank_length (x : Item) (l : List Item) :
    (insertByRank x l).length = l.length + 1 := by
  induction l with
  | nil => rfl
  | cons y ys ih =>
      simp only [insertByRank]
      split
      · simp
      · simp [ih]

theorem sortByRank_length (l : List Item) : (sortByRank l).length = l.length := by
  induction l with
  | nil => rfl
  | cons x xs ih =>
      show (insertByRank x (sortByRank xs)).length = xs.length + 1
      rw [insertByRank_length, ih]

theorem rebalancedPartition_length (db : DB) (pk : List (List Char)) :
    (rebalancedPartition db pk).length = partCount db pk := by
  rw [rebalancedPartition, assignRanks_length, sortByRank_length]
  rfl

/-- One-row partition used to exhibit the first assigned key of a
redistribution. -/
def exDbSingle : DB := { items := [{ id := 0, partKey := [], rank := [1] }], scheduled := [] }

/-- Two-row partition used to instantiate the redistribution chain. -/
def exDbPair : DB :=
  { items := [{ id := 0, partKey := [], rank := [1] }, { id := 1, partKey := [], rank := [2] }],
    scheduled := [] }

/-- Claim C3, counterexample: on a one-item partition the redistribution
loop assigns the first item `increment_rank (get_min_rank 1) 1 = [9,0,0,0]`,
not `get_min_rank 1 = [0,0,0,0]` as the claim states — the loop increments
the running key before the first assignment. -/
theorem rebalance_first_key_not_min_cex :
    (rebalancedPartition exDbSingle []).head?.map (fun x => x.rank) = some [9, 0, 0, 0]
    ∧ ¬ ((rebalancedPartition exDbSingle []).head?.map (fun x => x.rank)
        = some (get_min_rank (partCount exDbSingle []))) := by
  constructor
  · decide
  · decide

/-- Claim C3 (amended): for every partition, both redistribution paths
(`rebalance` and `rebalance_by_scheduled` share the reassignment loop
modelled by `rebalancedPartition`) assign the first item in current rank
order the key `increment_rank(minimum_key(n), n)` — the running key is
incremented before the first assignment — and assign each subsequent item
the increment of the key assigned to the previous item; consequently the
resulting keys are strictly increasing in the items' original relative
order. -/
theorem rebalance_assigns_incremented_chain (db : DB) (pk : List (List Char)) :
    (∀ x, (rebalancedPartition db pk).head? = some x →
        x.rank = increment_rank (get_min_rank (partCount db pk)) (partCount db pk))
    ∧ (∀ i x y, (rebalancedPartition db pk)[i]? = some x →
        (rebalancedPartition db pk)[i + 1]? = some y →
        y.rank = increment_rank x.rank (partCount db pk) ∧ lexLt x.rank y.rank = true) := by
  constructor
  · intro x hx
    rw [List.head?_eq_getElem?, rebalancedPartition, assignRanks_getElem] at hx
    obtain ⟨sx, _, hx2⟩ := Option.map_eq_some'.1 hx
    rw [← hx2]
    rfl
  · intro i x y hx hy
    have hlt : i + 1 < (rebalancedPartition db pk).length := by
      by_contra hcon
      rw [List.getElem?_eq_none (Nat.le_of_not_lt hcon)] at hy
      exact Option.noConfusion hy
    rw [rebalancedPartition_length] at hlt
    rw [rebalancedPartition, assignRanks_getElem] at hx hy
    obtain ⟨sx, _, hx2⟩ := Option.map_eq_some'.1 hx
    obtain ⟨sy, _, hy2⟩ := Option.map_eq_some'.1 hy
    have hxr : x.rank = iterIncr (partCount db pk) (i + 1) (get_min_rank (partCount db pk)) := by
      rw [← hx2]
    have hyr : y.rank = iterIncr (partCount db pk) (i + 2) (get_min_rank (partCount db pk)) := by
      rw [← hy2]
    constructor
    · rw [hxr, hyr, iterIncr_succ_right]
    · have hs : 0 < rankStride (partCount db pk) :=
        Nat.lt_of_lt_of_le Nat.zero_lt_one (rankStride_pos _)
      rw [hxr, hyr, iterIncr_min _ _ (by omega), iterIncr_min _ _ (by omega)]
      exact lexLt_natToDigits _ _ _
        (Nat.mul_lt_mul_of_pos_right (by omega) hs)
        (mul_rankStride_lt _ _ (by omega))

/-- Claim C3, witness: the amended chain instantiated on a concrete two-item
partition. -/
theorem rebalance_assigns_incremented_chain_instance :
    ({ id := 1, partKey := [], rank := [12, 0, 0, 0] } : Item).rank
        = increment_rank ({ id := 0, partKey := [], rank := [6, 0, 0, 0] } : Item).rank
            (partCount exDbPair [])
    ∧ lexLt ({ id := 0, partKey := [], rank := [6, 0, 0, 0] } : Item).rank
        ({ id := 1, partKey := [], rank := [12, 0, 0, 0] } : Item).rank = true :=
  (rebalance_assigns_incremented_chain exDbPair []).2 0
    { id := 0, partKey := [], rank := [6, 0, 0, 0] }
    { id := 1, partKey := [], rank := [12, 0, 0, 0] }
    (by decide) (by decide)

/-- Claim C1: every placement operation (`place_on_top`, `place_on_bottom`,
`place_before`, `place_after`, `place_between`) routes its synthesis through
`_wrapper_get_lexorank_in_between`; if the in-between synthesis raises the
overflow signal, the wrapper performs an inline redistribution of the whole
partition, re-reads the boundary objects' (now renumbered) ranks, and
retries the synthesis exactly once; if the retried synthesis raises again,
that error is propagated to the caller rather than retried further. -/
theorem wrapper_overflow_retries_once (db : DB)
    (selfPart : List (List Char)) (beforeObj afterObj : Option Item)
    (h : get_lexorank_in_between (beforeObj.map (fun b => b.rank))
        (afterObj.map (fun a => a.rank)) (partCount db selfPart)
      = .error .rebalancingRequired) :
    (∀ e, get_lexorank_in_between
          ((refreshOpt (rebalance_model db selfPart) beforeObj).map (fun b => b.rank))
          ((refreshOpt (rebalance_model db selfPart) afterObj).map (fun a => a.rank))
          (partCount (rebalance_model db selfPart) selfPart) = .error e →
        wrapperGetInBetween db selfPart beforeObj afterObj = .error (.lexo e))
    ∧ (∀ r, get_lexorank_in_between
          ((refreshOpt (rebalance_model db selfPart) beforeObj).map (fun b => b.rank))
          ((refreshOpt (rebalance_model db selfPart) afterObj).map (fun a => a.rank))
          (partCount (rebalance_model db selfPart) selfPart) = .ok r →
        wrapperGetInBetween db selfPart beforeObj afterObj
          = .ok (rebalance_model db selfPart, none)) := by
  constructor <;> intro z hz <;> simp only [wrapperGetInBetween, h, hz]

/-- Two adjacent over-length ranks: their midpoint would need 130 symbols. -/
def exLongPrev : Rank := List.replicate 128 0 ++ [1]

/-- The immediate upper neighbour of `exLongPrev` at length 129. -/
def exLongNext : Rank := List.replicate 128 0 ++ [2]

/-- Boundary row holding `exLongPrev`. -/
def exBLong : Item := { id := 1, partKey := [], rank := exLongPrev }

/-- Boundary row holding `exLongNext`. -/
def exALong : Item := { id := 2, partKey := [], rank := exLongNext }

/-- Partition whose two rows are rank-adjacent at length 129, so that the
first synthesis between them overflows. -/
def exDbLong : DB := { items := [exBLong, exALong], scheduled := [] }

/-- Claim C1, witness: on the length-129 adjacent boundaries the first
synthesis overflows, and the wrapper answers with the redistributed
partition (and the `None` payload of the successful-retry path). -/
theorem wrapper_overflow_retries_once_instance :
    get_lexorank_in_between ((some exBLong).map (fun b => b.rank))
        ((some exALong).map (fun a => a.rank)) (partCount exDbLong [])
      = .error .rebalancingRequired
    ∧ wrapperGetInBetween exDbLong [] (some exBLong) (some exALong)
        = .ok (rebalance_model exDbLong [], none) :=
  ⟨by decide,
    (wrapper_overflow_retries_once exDbLong [] (some exBLong) (some exALong)
      (by decide)).2 [9] (by decide)⟩

theorem rebalance_by_scheduled_scheduled (f : Option (List (List Char)))
    (k : List Char) (db db' : DB)
    (h : rebalance_by_scheduled f k db = .ok db') : db'.scheduled = db.scheduled := by
  unfold rebalance_by_scheduled at h
  cases hrev : reverse_with_respect_to_value_key f k with
  | error e => rw [hrev] at h; exact Except.noConfusion h
  | ok vals =>
      rw [hrev] at h
      injection h with h2
      rw [← h2]
      rfl

theorem processDue_scheduled (f : Option (List (List Char))) :
    ∀ (rows : List SchedRow) (db db' : DB),
      processDue f rows db = .ok db' → db'.scheduled = db.scheduled := by
  intro rows
  induction rows with
  | nil =>
      intro db db' h
      unfold processDue at h
      injection h with h2
      rw [← h2]
  | cons r rest ih =>
      intro db db' h
      unfold processDue at h
      cases hr : rebalance_by_scheduled f r.withRespectTo db with
      | error e => rw [hr] at h; exact Except.noConfusion h
      | ok dbm =>
          rw [hr] at h
          rw [ih dbm db' h, rebalance_by_scheduled_scheduled f r.withRespectTo db dbm hr]

/-- Claim C2 (amended): `run_due` invokes `rebalance_by_scheduled` for each
`ScheduledRebalancing` row with timestamp at most now (in order, the pass
aborting on the first error), but it never deletes the consumed rows: after
a successful pass the `ScheduledRebalancing` table is exactly what it was
before, so every processed request remains. -/
theorem resolve_preserves_requests (f : Option (List (List Char))) (now : Nat)
    (db db' : DB) (h : resolve f now db = .ok db') : db'.scheduled = db.scheduled :=
  processDue_scheduled f _ db db' h

/-- A database with one due `ScheduledRebalancing` row and one matching
partition row. -/
def exDbC2 : DB :=
  { items := [{ id := 0, partKey := [['a']], rank := [1, 1] }],
    scheduled := [{ model := ['m'], withRespectTo := ['a'], scheduledAt := 3 }] }

/-- Claim C2, counterexample: the pass over `exDbC2` succeeds — the due
request's partition is redistributed — yet the consumed request row is not
deleted: it is still in the table afterwards, contradicting "after a
successful pass no processed request remains". -/
theorem resolve_requests_remain_cex :
    resolve (some [['p']]) 5 exDbC2
      = .ok { items := [{ id := 0, partKey := [['a']], rank := [9, 0, 0, 0] }],
              scheduled := [{ model := ['m'], withRespectTo := ['a'], scheduledAt := 3 }] }
    ∧ ({ model := ['m'], withRespectTo := ['a'], scheduledAt := 3 } : SchedRow) ∈
        (DB.mk [{ id := 0, partKey := [['a']], rank := [9, 0, 0, 0] }]
          [{ model := ['m'], withRespectTo := ['a'], scheduledAt := 3 }]).scheduled := by
  constructor
  · decide
  · decide

/-- Claim C2, witness: the preservation theorem applied to the concrete pass
over `exDbC2`. -/
theorem resolve_preserves_requests_instance :
    (DB.mk [{ id := 0, partKey := [['a']], rank := [9, 0, 0, 0] }]
      [{ model := ['m'], withRespectTo := ['a'], scheduledAt := 3 }]).scheduled
      = exDbC2.scheduled :=
  resolve_preserves_requests (some [['p']]) 5 exDbC2 _ (by decide)

/-- Claim C7 (amended): within one `run_due` pass, a failure while processing
one due request aborts the whole pass — the error propagates out of
`resolve` and the redistribution of the remaining due partitions is not
attempted (they stay scheduled for the next pass, since rows are never
deleted). -/
theorem resolve_first_failure_aborts (f : Option (List (List Char))) (now : Nat)
    (db : DB) (r : SchedRow) (rest : List SchedRow) (e : PyErr)
    (hdue : db.scheduled.filter (fun x => decide (x.scheduledAt ≤ now)) = r :: rest)
    (herr : rebalance_by_scheduled f r.withRespectTo db = .error e) :
    resolve f now db = .error e := by
  unfold resolve
  rw [hdue]
  unfold processDue
  rw [herr]

/-- Two due requests: the first carries a malformed serialized key (one
component for two grouping fields), the second a well-formed one. -/
def exDbC7 : DB :=
  { items := [],
    scheduled := [{ model := ['m'], withRespectTo := ['a'], scheduledAt := 1 },
                  { model := ['m'], withRespectTo := ['a', ':', 'b'], scheduledAt := 1 }] }

/-- Claim C7, counterexample: processing the first due request of `exDbC7`
raises `IndexError` and the whole pass aborts with that error, although
processing the second due request on its own would have succeeded — the
failure is not isolated per partition. -/
theorem resolve_failure_not_isolated_cex :
    resolve (some [['p'], ['q']]) 5 exDbC7 = .error .indexError
    ∧ rebalance_by_scheduled (some [['p'], ['q']]) ['a', ':', 'b'] exDbC7 = .ok exDbC7 := by
  constructor
  · decide
  · decide

/-- Claim C7, witness: the abort theorem applied to the concrete pass over
`exDbC7`. -/
theorem resolve_first_failure_aborts_instance :
    resolve (some [['p'], ['q']]) 7 exDbC7 = .error .indexError :=
  resolve_first_failure_aborts (some [['p'], ['q']]) 7 exDbC7
    { model := ['m'], withRespectTo := ['a'], scheduledAt := 1 }
    [{ model := ['m'], withRespectTo := ['a', ':', 'b'], scheduledAt := 1 }]
    .indexError (by decide) (by decide)

theorem schedule_rebalancing_noop (m k : List Char) (t : Nat) (db : DB)
    (h : db.scheduled.any (fun r => decide (r.model = m) && decide (r.withRespectTo = k)) = true) :
    schedule_rebalancing m k t db = db := by
  simp [schedule_rebalancing, h]

theorem schedule_rebalancing_mem (m k : List Char) (t : Nat) (db : DB) :
    (schedule_rebalancing m k t db).scheduled.any
      (fun r => decide (r.model = m) && decide (r.withRespectTo = k)) = true := by
  unfold schedule_rebalancing
  by_cases h : db.scheduled.any (fun r => decide (r.model = m) && decide (r.withRespectTo = k)) = true
  · simp only [if_pos h]
    exact h
  · simp only [if_neg h, List.any_append, List.any_cons, List.any_nil]
    simp

theorem scheduleTimes_noop (m k : List Char) (ts : List Nat) (db : DB)
    (h : db.scheduled.any (fun r => decide (r.model = m) && decide (r.withRespectTo = k)) = true) :
    scheduleTimes m k ts db = db := by
  induction ts with
  | nil => rfl
  | cons t ts ih =>
      show scheduleTimes m k ts (schedule_rebalancing m k t db) = db
      rw [schedule_rebalancing_noop m k t db h]
      exact ih

/-- Claim C4 (amended): for every partition, calling `schedule_rebalancing`
K ≥ 1 times leaves exactly one `ScheduledRebalancing` row keyed by
(model name, serialized partition key), and each repeated call is a complete
no-op: because `scheduled_at` is an `auto_now_add` field and
`update_or_create` is called with both columns as the lookup, the row keeps
the timestamp of the first call — repeated calls do not refresh it. -/
theorem schedule_upsert_idempotent (m k : List Char) (db : DB) (t0 : Nat) (ts : List Nat)
    (h0 : db.scheduled.any (fun r => decide (r.model = m) && decide (r.withRespectTo = k)) = false) :
    scheduleTimes m k (t0 :: ts) db = schedule_rebalancing m k t0 db
    ∧ countKey m k (scheduleTimes m k (t0 :: ts) db) = 1
    ∧ (scheduleTimes m k (t0 :: ts) db).scheduled
        = db.scheduled ++ [{ model := m, withRespectTo := k, scheduledAt := t0 }] := by
  have hni : ¬ (db.scheduled.any (fun r => decide (r.model = m) && decide (r.withRespectTo = k)) = true) := by
    rw [h0]
    exact Bool.false_ne_true
  have h1 : schedule_rebalancing m k t0 db
      = { db with scheduled := db.scheduled ++ [{ model := m, withRespectTo := k, scheduledAt := t0 }] } := by
    unfold schedule_rebalancing
    rw [if_neg hni]
  have hfirst : scheduleTimes m k (t0 :: ts) db = schedule_rebalancing m k t0 db := by
    show scheduleTimes m k ts (schedule_rebalancing m k t0 db) = schedule_rebalancing m k t0 db
    exact scheduleTimes_noop m k ts _ (schedule_rebalancing_mem m k t0 db)
  have hfil : db.scheduled.filter (fun r => decide (r.model = m) && decide (r.withRespectTo = k)) = [] := by
    rw [List.filter_eq_nil_iff]
    intro a ha
    rw [List.any_eq_false] at h0
    exact h0 a ha
  refine ⟨hfirst, ?_, ?_⟩
  · rw [hfirst, h1, countKey]
    simp only [List.filter_append, hfil]
    simp
  · rw [hfirst, h1]

/-- Sample model name. -/
def exM : List Char := ['m']

/-- Sample serialized partition key. -/
def exK : List Char := ['a']

/-- Claim C4, counterexample: scheduling twice (at times 1 then 2) on an
empty table leaves one row whose `scheduled_at` is still 1 — the second call
did not refresh the timestamp, contradicting "each repeated call ...
refreshing that row's scheduling timestamp". -/
theorem schedule_no_timestamp_refresh_cex :
    (scheduleTimes exM exK [1, 2] (DB.mk [] [])).scheduled
      = [{ model := exM, withRespectTo := exK, scheduledAt := 1 }]
    ∧ ¬ ((scheduleTimes exM exK [1, 2] (DB.mk [] [])).scheduled
      = [{ model := exM, withRespectTo := exK, scheduledAt := 2 }]) := by
  constructor
  · decide
  · decide

/-- Claim C4, witness: the amended idempotence theorem applied to three
scheduling calls on an empty table. -/
theorem schedule_upsert_idempotent_instance :
    scheduleTimes exM exK (1 :: [2, 3]) (DB.mk [] []) = schedule_rebalancing exM exK 1 (DB.mk [] [])
    ∧ countKey exM exK (scheduleTimes exM exK (1 :: [2, 3]) (DB.mk [] [])) = 1
    ∧ (scheduleTimes exM exK (1 :: [2, 3]) (DB.mk [] [])).scheduled
        = (DB.mk [] []).scheduled ++ [{ model := exM, withRespectTo := exK, scheduledAt := 1 }] :=
  schedule_upsert_idempotent exM exK (DB.mk [] []) 1 [2, 3] (by decide)

theorem rebalancing_required_iff (db : DB) (pk : List (List Char)) :
    rebalancing_required db pk = true
      ↔ ∃ j ∈ db.items, j.partKey = pk ∧ rebalancing_length ≤ j.rank.length := by
  simp [rebalancing_required, List.any_eq_true]

/-- Claim C8: after every successful save of a ranked item, if some item of
the same partition (the saved row included) has a rank whose length is at or
above `rebalancing_length`, a `ScheduledRebalancing` row for that partition
is upserted; if no item of the partition is at or above the threshold, the
save creates no request. -/
theorem save_schedules_iff_threshold (m : List Char) (now : Nat) (it : Item) (db : DB) :
    ((∃ j ∈ upsertItem it db.items, j.partKey = it.partKey ∧ rebalancing_length ≤ j.rank.length) →
      ∃ row ∈ (save_model m now it db).scheduled,
        row.model = m ∧ row.withRespectTo = with_respect_to_value_key it.partKey)
    ∧ ((¬ ∃ j ∈ upsertItem it db.items, j.partKey = it.partKey ∧ rebalancing_length ≤ j.rank.length) →
      (save_model m now it db).scheduled = db.scheduled) := by
  constructor
  · intro hex
    have ht : rebalancing_required { db with items := upsertItem it db.items } it.partKey = true :=
      (rebalancing_required_iff _ _).2 hex
    unfold save_model
    rw [if_pos ht]
    have hmem := schedule_rebalancing_mem m (with_respect_to_value_key it.partKey) now
      { db with items := upsertItem it db.items }
    rw [List.any_eq_true] at hmem
    obtain ⟨row, hrow, hp⟩ := hmem
    rw [Bool.and_eq_true, decide_eq_true_eq, decide_eq_true_eq] at hp
    exact ⟨row, hrow, hp.1, hp.2⟩
  · intro hnex
    have hf : ¬ (rebalancing_required { db with items := upsertItem it db.items } it.partKey = true) :=
      fun ht => hnex ((rebalancing_required_iff _ _).1 ht)
    unfold save_model
    rw [if_neg hf]

/-- A row whose rank sits exactly at the rebalancing threshold length. -/
def exItemLong : Item := { id := 0, partKey := [], rank := List.replicate 128 1 }

/-- Claim C8, witness: saving a row with a 128-symbol rank into an empty
table upserts a `ScheduledRebalancing` row for its partition. -/
theorem save_schedules_iff_threshold_instance :
    ∃ row ∈ (save_model exM 5 exItemLong (DB.mk [] [])).scheduled,
      row.model = exM ∧ row.withRespectTo = with_respect_to_value_key exItemLong.partKey :=
  (save_schedules_iff_threshold exM 5 exItemLong (DB.mk [] [])).1 (by decide)

theorem splitSep_no_sep (x : List Char) (hx : SEPARATOR ∉ x) : splitSep x = [x] := by
  induction x with
  | nil => rfl
  | cons c rest ih =>
      have hc : ¬ (c = SEPARATOR) := fun h => hx (h ▸ List.mem_cons_self c rest)
      have hrest : SEPARATOR ∉ rest := fun h => hx (List.mem_cons_of_mem c h)
      simp [splitSep, hc, ih hrest]

theorem splitSep_append (x t : List Char) (hx : SEPARATOR ∉ x) :
    splitSep (x ++ SEPARATOR :: t) = x :: splitSep t := by
  induction x with
  | nil => simp [splitSep]
  | cons c rest ih =>
      have hc : ¬ (c = SEPARATOR) := fun h => hx (h ▸ List.mem_cons_self c rest)
      have hrest : SEPARATOR ∉ rest := fun h => hx (List.mem_cons_of_mem c h)
      simp [splitSep, hc, ih hrest]

theorem splitSep_joinSep (xs : List (List Char)) (hne : xs ≠ [])
    (h : ∀ x ∈ xs, SEPARATOR ∉ x) : splitSep (joinSep xs) = xs := by
  induction xs with
  | nil => exact absurd rfl hne
  | cons x rest ih =>
      cases rest with
      | nil => exact splitSep_no_sep x (h x (List.mem_cons_self x []))
      | cons y rest2 =>
          show splitSep (x ++ SEPARATOR :: joinSep (y :: rest2)) = x :: y :: rest2
          rw [splitSep_append x _ (h x (List.mem_cons_self x _))]
          rw [ih (by simp) (fun z hz => h z (List.mem_cons_of_mem x hz))]

/-- Claim C9: for a model class with a non-empty `order_with_respect_to`
list, decoding the serialized partition key
(`reverse_with_respect_to_value_key` applied to `_with_respect_to_value_key`)
recovers exactly the string forms of the grouping-field values in field
order — the mapping assigns each grouping field its value — and the encoding
is injective on partition keys whose serialized components do not contain
the separator. -/
theorem partition_key_roundtrip (fields vals : List (List Char))
    (h1 : fields ≠ []) (h2 : fields.length = vals.length)
    (h3 : ∀ v ∈ vals, SEPARATOR ∉ v) :
    reverse_with_respect_to_value_key (some fields) (with_respect_to_value_key vals) = .ok vals
    ∧ (∀ vals' : List (List Char), (∀ v ∈ vals', SEPARATOR ∉ v) → vals' ≠ [] →
        with_respect_to_value_key vals = with_respect_to_value_key vals' → vals = vals') := by
  have hvne : vals ≠ [] := by
    intro hv
    rw [hv] at h2
    simp only [List.length_nil] at h2
    exact h1 (List.length_eq_zero.1 h2)
  have hsplit : splitSep (joinSep vals) = vals := splitSep_joinSep vals hvne h3
  constructor
  · show reverse_with_respect_to_value_key (some fields) (joinSep vals) = .ok vals
    unfold reverse_with_respect_to_value_key
    simp only [hsplit]
    rw [if_neg (by omega), h2, List.take_length]
  · intro vals' h3' hne' heq
    have hsplit' : splitSep (joinSep vals') = vals' := splitSep_joinSep vals' hne' h3'
    rw [← hsplit, ← hsplit']
    show splitSep (with_respect_to_value_key vals) = splitSep (with_respect_to_value_key vals')
    rw [heq]

/-- Claim C9, witness: the round-trip instantiated on a two-field partition
key. -/
theorem partition_key_roundtrip_instance :
    reverse_with_respect_to_value_key (some [['p'], ['q']])
        (with_respect_to_value_key [['1'], ['2']]) = .ok [['1'], ['2']] :=
  (partition_key_roundtrip [['p'], ['q']] [['1'], ['2']]
    (by decide) (by decide) (by decide)).1

theorem wrapper_first_ok (db : DB) (p : List (List Char))
    (beforeObj afterObj : Option Item) (r : Rank)
    (h : get_lexorank_in_between (beforeObj.map (fun b => b.rank))
        (afterObj.map (fun a => a.rank)) (partCount db p) = .ok r) :
    wrapperGetInBetween db p beforeObj afterObj = .ok (db, some (beforeObj, r, afterObj)) := by
  unfold wrapperGetInBetween
  rw [h]

theorem place_between_ok_some (m : List Char) (now : Nat) (db : DB) (selfObj : Item)
    (beforeObj afterObj : Option Item) (r : Rank)
    (hw : wrapperGetInBetween db selfObj.partKey beforeObj afterObj
      = .ok (db, some (beforeObj, r, afterObj))) :
    place_between m now db selfObj beforeObj afterObj
      = (if db.items.any (fun j =>
            decide (j.partKey = selfObj.partKey)
            && (if rankTruthy (beforeObj.map (fun b => b.rank))
                then lexLt ((beforeObj.map (fun b => b.rank)).getD []) j.rank else true)
            && (if rankTruthy (afterObj.map (fun a => a.rank))
                then lexLt j.rank ((afterObj.map (fun a => a.rank)).getD []) else true))
         then .error .invalidRank
         else .ok (save_model m now { selfObj with rank := r } db)) := by
  unfold place_between
  rw [hw]

/-- Claim C6: when the in-between synthesis succeeds (and the supplied
boundary objects carry non-empty ranks), `place_between` fails — raising
`Exception("Not valid rank")` without persisting any rank on the target
item — exactly when some existing item of the partition has a rank strictly
greater than the before-boundary's rank (if given) and strictly less than
the after-boundary's rank (if given); when no such item exists it persists
the synthesized in-between key on the target item. -/
theorem place_between_validates (m : List Char) (now : Nat) (db : DB) (selfObj : Item)
    (beforeObj afterObj : Option Item) (r : Rank)
    (hb : beforeObj.all (fun b => !b.rank.isEmpty) = true)
    (ha : afterObj.all (fun a => !a.rank.isEmpty) = true)
    (h : get_lexorank_in_between (beforeObj.map (fun b => b.rank))
        (afterObj.map (fun a => a.rank)) (partCount db selfObj.partKey) = .ok r) :
    (place_between m now db selfObj beforeObj afterObj = .error .invalidRank
      ↔ ∃ j ∈ db.items, j.partKey = selfObj.partKey
          ∧ beforeObj.all (fun b => lexLt b.rank j.rank) = true
          ∧ afterObj.all (fun a => lexLt j.rank a.rank) = true)
    ∧ ((¬ ∃ j ∈ db.items, j.partKey = selfObj.partKey
          ∧ beforeObj.all (fun b => lexLt b.rank j.rank) = true
          ∧ afterObj.all (fun a => lexLt j.rank a.rank) = true) →
        place_between m now db selfObj beforeObj afterObj
          = .ok (save_model m now { selfObj with rank := r } db)) := by
  have hred := place_between_ok_some m now db selfObj beforeObj afterObj r
    (wrapper_first_ok db selfObj.partKey beforeObj afterObj r h)
  have hpred : ∀ j : Item,
      (decide (j.partKey = selfObj.partKey)
        && (if rankTruthy (beforeObj.map (fun b => b.rank))
            then lexLt ((beforeObj.map (fun b => b.rank)).getD []) j.rank else true)
        && (if rankTruthy (afterObj.map (fun a => a.rank))
            then lexLt j.rank ((afterObj.map (fun a => a.rank)).getD []) else true)) = true
      ↔ (j.partKey = selfObj.partKey
          ∧ beforeObj.all (fun b => lexLt b.rank j.rank) = true
          ∧ afterObj.all (fun a => lexLt j.rank a.rank) = true) := by
    intro j
    cases beforeObj with
    | none =>
        cases afterObj with
        | none => simp [rankTruthy, Option.all]
        | some a =>
            have ha2 : a.rank.isEmpty = false := by
              have := ha
              simp only [Option.all] at this
              simpa using this
            simp [rankTruthy, Option.all, ha2]
    | some b =>
        have hb2 : b.rank.isEmpty = false := by
          have := hb
          simp only [Option.all] at this
          simpa using this
        cases afterObj with
        | none => simp [rankTruthy, Option.all, hb2]
        | some a =>
            have ha2 : a.rank.isEmpty = false := by
              have := ha
              simp only [Option.all] at this
              simpa using this
            simp [rankTruthy, Option.all, hb2, ha2, and_assoc]
  have hiff : (db.items.any (fun j =>
      decide (j.partKey = selfObj.partKey)
      && (if rankTruthy (beforeObj.map (fun b => b.rank))
          then lexLt ((beforeObj.map (fun b => b.rank)).getD []) j.rank else true)
      && (if rankTruthy (afterObj.map (fun a => a.rank))
          then lexLt j.rank ((afterObj.map (fun a => a.rank)).getD []) else true)) = true)
      ↔ ∃ j ∈ db.items, j.partKey = selfObj.partKey
          ∧ beforeObj.all (fun b => lexLt b.rank j.rank) = true
          ∧ afterObj.all (fun a => lexLt j.rank a.rank) = true := by
    rw [List.any_eq_true]
    constructor
    · rintro ⟨j, hj, hp⟩
      exact ⟨j, hj, (hpred j).1 hp⟩
    · rintro ⟨j, hj, hp⟩
      exact ⟨j, hj, (hpred j).2 hp⟩
  by_cases hany : (db.items.any (fun j =>
      decide (j.partKey = selfObj.partKey)
      && (if rankTruthy (beforeObj.map (fun b => b.rank))
          then lexLt ((beforeObj.map (fun b => b.rank)).getD []) j.rank else true)
      && (if rankTruthy (afterObj.map (fun a => a.rank))
          then lexLt j.rank ((afterObj.map (fun a => a.rank)).getD []) else true)) = true)
  · constructor
    · rw [hred, if_pos hany]
      simp only [true_iff]
      exact hiff.1 hany
    · intro hnex
      exact absurd (hiff.1 hany) hnex
  · constructor
    · rw [hred, if_neg hany]
      constructor
      · intro hcon
        exact Except.noConfusion hcon
      · intro hex
        exact absurd (hiff.2 hex) hany
    · intro _
      rw [hred, if_neg hany]

/-- Partition used for the `place_between` validation witness: an item with
rank `[4]` already sits strictly between the boundaries `[2]` and `[8]`. -/
def exDbC6 : DB :=
  { items := [{ id := 1, partKey := [], rank := [2] },
              { id := 2, partKey := [], rank := [8] },
              { id := 3, partKey := [], rank := [4] }],
    scheduled := [] }

/-- The before-boundary of the C6 witness. -/
def exB6 : Item := { id := 1, partKey := [], rank := [2] }

/-- The after-boundary of the C6 witness. -/
def exA6 : Item := { id := 2, partKey := [], rank := [8] }

/-- The moved item of the C6 witness. -/
def exSelf6 : Item := { id := 0, partKey := [], rank := [5] }

/-- Claim C6, witness: with an item already strictly between the boundaries,
the validated placement raises the invalid-range error. -/
theorem place_between_validates_instance :
    place_between exM 5 exDbC6 exSelf6 (some exB6) (some exA6) = .error .invalidRank :=
  (place_between_validates exM 5 exDbC6 exSelf6 (some exB6) (some exA6) [5]
    (by decide) (by decide) (by decide)).1.mpr (by decide)

/-- Claim C10: an item already persisted with a rank strictly between the
ranks of the supplied boundary objects can never be placed between those
boundaries: the stale-range existence check of `place_between` does not
exclude the row of the item being placed itself, so (when the synthesis
succeeds) the call fails with the invalid-range error instead of
reassigning the item's rank. -/
theorem place_between_self_blocks (m : List Char) (now : Nat) (db : DB)
    (selfObj storedObj b a : Item) (r : Rank)
    (hmem : storedObj ∈ db.items) (_hid : storedObj.id = selfObj.id)
    (hpart : storedObj.partKey = selfObj.partKey)
    (hlt1 : lexLt b.rank storedObj.rank = true)
    (hlt2 : lexLt storedObj.rank a.rank = true)
    (h : get_lexorank_in_between ((some b).map (fun x => x.rank))
        ((some a).map (fun x => x.rank)) (partCount db selfObj.partKey) = .ok r) :
    place_between m now db selfObj (some b) (some a) = .error .invalidRank := by
  have hred := place_between_ok_some m now db selfObj (some b) (some a) r
    (wrapper_first_ok db selfObj.partKey (some b) (some a) r h)
  have hprev : (if rankTruthy ((some b).map (fun x => x.rank))
      then lexLt (((some b).map (fun x => x.rank)).getD []) storedObj.rank else true) = true := by
    cases htr : rankTruthy ((some b).map (fun x => x.rank)) with
    | false => simp
    | true => simpa using hlt1
  have hnext : (if rankTruthy ((some a).map (fun x => x.rank))
      then lexLt storedObj.rank (((some a).map (fun x => x.rank)).getD []) else true) = true := by
    cases htr : rankTruthy ((some a).map (fun x => x.rank)) with
    | false => simp
    | true => simpa using hlt2
  have hany : (db.items.any (fun j =>
      decide (j.partKey = selfObj.partKey)
      && (if rankTruthy ((some b).map (fun x => x.rank))
          then lexLt (((some b).map (fun x => x.rank)).getD []) j.rank else true)
      && (if rankTruthy ((some a).map (fun x => x.rank))
          then lexLt j.rank (((some a).map (fun x => x.rank)).getD []) else true)) = true) := by
    rw [List.any_eq_true]
    refine ⟨storedObj, hmem, ?_⟩
    rw [Bool.and_eq_true, Bool.and_eq_true]
    exact ⟨⟨by simp [hpart], hprev⟩, hnext⟩
  rw [hred, if_pos hany]

/-- Partition used for the self-blocking witness: the moved item itself is
persisted with rank `[5]`, strictly between the boundaries `[2]` and
`[8]`. -/
def exDbC10 : DB :=
  { items := [{ id := 1, partKey := [], rank := [2] },
              { id := 0, partKey := [], rank := [5] },
              { id := 2, partKey := [], rank := [8] }],
    scheduled := [] }

/-- Claim C10, witness: placing the already-in-range item between the same
boundaries fails with the invalid-range error. -/
theorem place_between_self_blocks_instance :
    place_between exM 5 exDbC10 exSelf6 (some exB6) (some exA6) = .error .invalidRank :=
  place_between_self_blocks exM 5 exDbC10 exSelf6
    { id := 0, partKey := [], rank := [5] } exB6 exA6 [5]
    (by decide) (by decide) (by decide) (by decide) (by decide) (by decide)

/-- A one-row partition whose first object has rank `[10]`. -/
def exDbC5 : DB := { items := [{ id := 1, partKey := [], rank := [10] }], scheduled := [] }

/-- A fresh item about to be placed on top of `exDbC5`. -/
def exSelf5 : Item := { id := 0, partKey := [], rank := [] }

/-- Claim C5 (code bug): `place_on_top` never reaches the synthesis — its
call `self.get_first_object()` omits the classmethod's required
`with_respect_to_kwargs` parameter and raises `TypeError` on every
invocation — whereas the behaviour the claim (and §4.2 of the spec)
describes, modelled by `place_on_top_spec`, assigns the moved item
`midpoint(None, first.key)` (here `midpoint(None, [10]) = [5]`) and persists
it. -/
theorem place_on_top_type_error :
    place_on_top exDbC5 exSelf5 = .error .typeError
    ∧ place_on_top_spec exM 5 exDbC5 exSelf5
        = .ok (DB.mk [{ id := 1, partKey := [], rank := [10] },
                      { id := 0, partKey := [], rank := [5] }] []) := by
  constructor
  · decide
  · decide
